import Mathlib

/-!
Verification of the scalable Gaussian-process inference core described by this
repository's specification.  The repository itself ships only the example
notebook `examples/fast_variances_ski_LOVE.ipynb` and CI configuration; the
numerical core (conjugate gradients, Lanczos, the SKI operator, the LOVE cache
and the marginal-log-likelihood engine) lives outside the checked-in sources,
so those components are modelled here from the specification, in exact
arithmetic (ℚ or ℝ) rather than floating point.  The deep-kernel feature
normalization of the notebook's `GPRegressionModel.forward` is translated
directly from the notebook source.
-/

open Matrix Filter

namespace GP

/-- Modelled from the spec: squared Euclidean norm of a vector.  The CG
convergence criterion "residual norm relative to right-hand-side norm below
`tol`" is rendered square-free over ℚ as `normSq r ≤ tol ^ 2 * normSq b`,
which is equivalent for `tol ≥ 0`. -/
def normSq {n : ℕ} (v : Fin n → ℚ) : ℚ := v ⬝ᵥ v

/-- Modelled from the spec: the iteration state of the conjugate-gradient
solver (missing from the checked-in sources): current estimate `x`, residual
`r` and search direction `p`. -/
structure CGState (n : ℕ) where
  x : Fin n → ℚ
  r : Fin n → ℚ
  p : Fin n → ℚ

/-- Modelled from the spec: one standard conjugate-gradient update, using only
matrix-vector products with `A`.  In ℚ a division by zero yields zero, so the
step is total; for symmetric positive-definite `A` the denominators are
nonzero while the residual is nonzero. -/
def cgStep {n : ℕ} (A : Matrix (Fin n) (Fin n) ℚ) (s : CGState n) : CGState n :=
  let Ap := A.mulVec s.p
  let alpha := (s.r ⬝ᵥ s.r) / (s.p ⬝ᵥ Ap)
  let x1 := s.x + alpha • s.p
  let r1 := s.r - alpha • Ap
  let beta := (r1 ⬝ᵥ r1) / (s.r ⬝ᵥ s.r)
  ⟨x1, r1, r1 + beta • s.p⟩

/-- Modelled from the spec: what the CG solver hands back — the estimate, a
`ConvergenceWarning` flag (`warning = true` when the tolerance was not reached
within the iteration cap; the best estimate is still returned rather than
failing), and the number of iterations actually performed. -/
structure CGResult (n : ℕ) where
  x : Fin n → ℚ
  warning : Bool
  iters : ℕ

/-- Modelled from the spec: the CG main loop (missing from the checked-in
sources).  Before every step the relative-residual test is evaluated; on
success the loop reports convergence (`warning = false`), and when the fuel
`max_iter` is exhausted it returns the current best estimate with
`warning = true`. -/
def cgLoop {n : ℕ} (A : Matrix (Fin n) (Fin n) ℚ) (b : Fin n → ℚ) (tol : ℚ) :
    ℕ → CGState n → CGResult n
  | 0, s => if normSq s.r ≤ tol ^ 2 * normSq b then ⟨s.x, false, 0⟩ else ⟨s.x, true, 0⟩
  | (fuel + 1), s =>
    if normSq s.r ≤ tol ^ 2 * normSq b then ⟨s.x, false, 0⟩
    else
      ⟨(cgLoop A b tol fuel (cgStep A s)).x,
       (cgLoop A b tol fuel (cgStep A s)).warning,
       (cgLoop A b tol fuel (cgStep A s)).iters + 1⟩

/-- Modelled from the spec: `solve(operator A, vector b, tol, max_iter) -> x`,
started from the zero vector, whose residual is `b`. -/
def cgSolve {n : ℕ} (A : Matrix (Fin n) (Fin n) ℚ) (b : Fin n → ℚ) (tol : ℚ)
    (maxIter : ℕ) : CGResult n :=
  cgLoop A b tol maxIter ⟨0, b, b⟩

/-- Modelled from the spec: the sequence of CG iterates with no early
stopping, used to state what "best estimate after `max_iter` iterations"
means. -/
def cgIterate {n : ℕ} (A : Matrix (Fin n) (Fin n) ℚ) (b : Fin n → ℚ) (k : ℕ) :
    CGState n :=
  (cgStep A)^[k] ⟨0, b, b⟩

/-- Residual invariant of the CG loop: the stored residual is the true
residual `b - A x` of the stored estimate. -/
def ResInv {n : ℕ} (A : Matrix (Fin n) (Fin n) ℚ) (b : Fin n → ℚ)
    (s : CGState n) : Prop :=
  s.r = b - A.mulVec s.x

/-- Modelled from the spec: the Lanczos tridiagonalization main loop (missing
from the checked-in sources), in the standard normalization-free form over ℚ:
each step records the Rayleigh coefficient `alpha` and the coupling
coefficient `beta` of the three-term recurrence and stops early on breakdown
(zero Krylov vector).  The fuel argument is the step budget `k`. -/
def lanczosLoop {n : ℕ} (A : Matrix (Fin n) (Fin n) ℚ) :
    ℕ → (Fin n → ℚ) → (Fin n → ℚ) → List (ℚ × ℚ)
  | 0, _, _ => []
  | (fuel + 1), vprev, v =>
    if normSq v = 0 then []
    else
      let Av := A.mulVec v
      let alpha := (v ⬝ᵥ Av) / normSq v
      let beta := if normSq vprev = 0 then 0 else normSq v / normSq vprev
      let w := Av - alpha • v - beta • vprev
      (alpha, beta) :: lanczosLoop A fuel v w

/-- Modelled from the spec: run Lanczos tridiagonalization of `A` started
from the probe vector `z` for at most `k` steps, returning the coefficient
pairs of the tridiagonal matrix `T`. -/
def lanczos {n : ℕ} (A : Matrix (Fin n) (Fin n) ℚ) (z : Fin n → ℚ) (k : ℕ) :
    List (ℚ × ℚ) :=
  lanczosLoop A k 0 z

/-- Modelled from the spec: the SKI operator's `matmul` — apply `Wᵀ`, then the
small grid kernel's product, then `W`; the n×n matrix `W * K_grid * Wᵀ` is
never formed. -/
def skiMatmul {R : Type} [CommRing R] {n g : ℕ} (W : Matrix (Fin n) (Fin g) R)
    (Kgrid : Matrix (Fin g) (Fin g) R) (v : Fin n → R) : Fin n → R :=
  W.mulVec (Kgrid.mulVec (Wᵀ.mulVec v))

/-- Modelled from the spec: the dense kernel matrix, entry `(i, j)` given by
the kernel function evaluated at the point pair. -/
def denseKernelMatrix (k : ℝ → ℝ → ℝ) {n : ℕ} (x : Fin n → ℝ) :
    Matrix (Fin n) (Fin n) ℝ :=
  Matrix.of fun i j => k (x i) (x j)

/-- Modelled from the spec: the small grid kernel matrix `K_grid`, the kernel
evaluated at pairs of grid points. -/
def gridKernelMatrix (k : ℝ → ℝ → ℝ) {g : ℕ} (u : Fin g → ℝ) :
    Matrix (Fin g) (Fin g) ℝ :=
  Matrix.of fun t s => k (u t) (u s)

/-- Modelled from the spec: the closed set of structured linear-operator
kinds — dense, sum, scalar multiple and Kronecker product — indexed by
dimension. -/
inductive LinOp : ℕ → Type
| dense : {n : ℕ} → Matrix (Fin n) (Fin n) ℚ → LinOp n
| opSum : {n : ℕ} → LinOp n → LinOp n → LinOp n
| scaled : {n : ℕ} → ℚ → LinOp n → LinOp n
| kron : {m k : ℕ} → LinOp m → LinOp k → LinOp (m * k)

/-- Modelled from the spec: composite operators implement `matmul` by
delegating to their children and combining the results; the Kronecker case
reshapes the vector along `finProdFinEquiv` and applies the two children in
sequence, never forming the product matrix. -/
def LinOp.matmul : {n : ℕ} → LinOp n → (Fin n → ℚ) → (Fin n → ℚ)
  | _, .dense M, v => M.mulVec v
  | _, .opSum a b, v => a.matmul v + b.matmul v
  | _, .scaled c a, v => c • a.matmul v
  | _, .kron a b, v => fun i =>
      a.matmul
        (fun j1 => b.matmul (fun j2 => v (finProdFinEquiv (j1, j2)))
          (finProdFinEquiv.symm i).2)
        (finProdFinEquiv.symm i).1

/-- Explicit materialization of a structured operator, used only to state
what `matmul` computes; the operators themselves never build it. -/
def LinOp.toMatrix : {n : ℕ} → LinOp n → Matrix (Fin n) (Fin n) ℚ
  | _, .dense M => M
  | _, .opSum a b => a.toMatrix + b.toMatrix
  | _, .scaled c a => c • a.toMatrix
  | _, .kron a b =>
      (Matrix.kroneckerMap (· * ·) a.toMatrix b.toMatrix).submatrix
        finProdFinEquiv.symm finProdFinEquiv.symm

/-- Modelled from the spec: an operator claims symmetry when its dense leaves
are symmetric matrices; sums, scalar multiples and Kronecker products of
symmetric children claim symmetry. -/
def LinOp.IsSymOp : {n : ℕ} → LinOp n → Prop
  | _, .dense M => M.IsSymm
  | _, .opSum a b => a.IsSymOp ∧ b.IsSymOp
  | _, .scaled _ a => a.IsSymOp
  | _, .kron a b => a.IsSymOp ∧ b.IsSymOp

/-- Modelled from the spec: the two explicit model modes — training
(parameters mutable, caches invalid) and evaluation (parameters frozen, the
LOVE cache may be built and reused). -/
inductive Mode
| training
| evaluation
deriving DecidableEq

/-- Modelled from the spec: the observable state of the model around the LOVE
cache — the current mode, a version counter bumped at every parameter
mutation, a representative parameter value, the cache (`none` = Uncached,
`some v` = Cached, stamped with the parameter version at build time) and a
rebuild counter. -/
structure GPModelState where
  mode : Mode
  paramVersion : ℕ
  paramValue : ℚ
  cache : Option ℕ
  rebuilds : ℕ
deriving DecidableEq

/-- Modelled from the spec: the operations driving the LOVE cache state
machine — enter training mode, enter evaluation mode, mutate a model
parameter, and make a prediction call. -/
inductive GPOp
| trainMode
| evalMode
| mutateParam (v : ℚ)
| predict

/-- Modelled from the spec: the LOVE cache transition function.  Entering
training mode invalidates the cache; a parameter mutation bumps the version
and invalidates the cache at the same point; a prediction in evaluation mode
builds the cache (counting a rebuild) when it is absent and reuses it
otherwise. -/
def applyOp (s : GPModelState) : GPOp → GPModelState
  | .trainMode => { s with mode := .training, cache := none }
  | .evalMode => { s with mode := .evaluation }
  | .mutateParam v =>
      { s with paramValue := v, paramVersion := s.paramVersion + 1, cache := none }
  | .predict =>
      match s.mode with
      | .training => s
      | .evaluation =>
          match s.cache with
          | some _ => s
          | none => { s with cache := some s.paramVersion, rebuilds := s.rebuilds + 1 }

/-- Modelled from the spec: a freshly constructed model — training mode, no
cache, no rebuilds yet. -/
def initState : GPModelState :=
  { mode := .training, paramVersion := 0, paramValue := 1, cache := none, rebuilds := 0 }

/-- Run a sequence of operations from the initial model state. -/
def runOps (ops : List GPOp) : GPModelState := ops.foldl applyOp initState

/-- Validity of the LOVE cache: whenever a cache is present it was built at
the current parameter version, so no stale cache can ever be read. -/
def CacheFresh (s : GPModelState) : Prop :=
  ∀ v, s.cache = some v → v = s.paramVersion

/-- Modelled from the spec: the structural error taxonomy — `InvalidParameter`,
`NumericalFailure` and `ResourceLimitExceeded` abort the current call;
`ConvergenceWarning` is not an error and travels with the result instead. -/
inductive GPError
| invalidParameter
| numericalFailure
| resourceLimitExceeded
deriving DecidableEq

/-- Modelled from the spec: a successful prediction outcome, carrying the
recoverable `ConvergenceWarning` flag alongside the best-effort result. -/
structure PredOutcome where
  warning : Bool
deriving DecidableEq

/-- Modelled from the spec: the inputs that decide the fate of one prediction
call — the parameter box constraints, the size a materialization would need
against the configured memory limit, which jitter attempts would render the
matrix positive-definite, the jitter attempt budget, and whether CG reached
its tolerance. -/
structure CallInputs where
  lo : ℚ
  hi : ℚ
  matSize : ℕ
  memLimit : ℕ
  jitterSucceeds : ℕ → Bool
  maxJitter : ℕ
  cgConverged : Bool

/-- Modelled from the spec: one prediction call.  Structural checks run
first — parameter bounds, then the materialization limit, then bounded jitter
escalation — and any failure aborts with the corresponding error and the
state untouched; otherwise the call succeeds, updating the LOVE cache, and a
CG non-convergence is surfaced as a warning on the result rather than as an
abort. -/
def predictCall (s : GPModelState) (c : CallInputs) :
    GPModelState × Except GPError PredOutcome :=
  if ¬ (c.lo ≤ s.paramValue ∧ s.paramValue ≤ c.hi) then
    (s, .error .invalidParameter)
  else if c.memLimit < c.matSize then
    (s, .error .resourceLimitExceeded)
  else if (List.range (c.maxJitter + 1)).all (fun j => ! c.jitterSucceeds j) = true then
    (s, .error .numericalFailure)
  else
    (applyOp (applyOp s .evalMode) .predict, .ok ⟨! c.cgConverged⟩)

/-- Modelled from the spec: the exact marginal log likelihood
`L = -1/2 yᵀ A⁻¹ y - 1/2 log det A - n/2 log (2π)` with
`A = K(X,X) + σ² I`. -/
noncomputable def marginalLogLik {n : ℕ} (A : Matrix (Fin n) (Fin n) ℝ)
    (y : Fin n → ℝ) : ℝ :=
  -(1 / 2) * (y ⬝ᵥ A⁻¹.mulVec y) - (1 / 2) * Real.log A.det
    - ((n : ℝ) / 2) * Real.log (2 * Real.pi)

/-- Modelled from the spec: the training objective as the inference engine
computes it — the quadratic term through the CG solution `u` of `A u = y`
(one solve per optimizer step), the log-determinant term through the
quadrature estimate, here taken at its exact value. -/
noncomputable def engineMLL {n : ℕ} (A : Matrix (Fin n) (Fin n) ℝ)
    (y : Fin n → ℝ) (u : Fin n → ℝ) : ℝ :=
  -(1 / 2) * (y ⬝ᵥ u) - (1 / 2) * Real.log A.det
    - ((n : ℝ) / 2) * Real.log (2 * Real.pi)

/-- Modelled from the spec: the engine hands the external optimizer the
negated marginal log likelihood, a loss to minimize. -/
noncomputable def engineLoss {n : ℕ} (A : Matrix (Fin n) (Fin n) ℝ)
    (y : Fin n → ℝ) (u : Fin n → ℝ) : ℝ :=
  - engineMLL A y u

/-- Translated from `examples/fast_variances_ski_LOVE.ipynb`,
`GPRegressionModel.forward`: the per-column minimum of the extracted feature
matrix (`projected_x.min(0)[0]`). -/
def colMin {n d : ℕ} (X : Fin (n + 1) → Fin d → ℚ) (j : Fin d) : ℚ :=
  Finset.univ.inf' Finset.univ_nonempty (fun i => X i j)

/-- Translated from the notebook: `projected_x - projected_x.min(0)[0]`. -/
def shiftedFeatures {n d : ℕ} (X : Fin (n + 1) → Fin d → ℚ)
    (i : Fin (n + 1)) (j : Fin d) : ℚ :=
  X i j - colMin X j

/-- Translated from the notebook: the per-column maximum of the shifted
features (`projected_x.max(0)[0]` after the shift). -/
def colMax {n d : ℕ} (X : Fin (n + 1) → Fin d → ℚ) (j : Fin d) : ℚ :=
  Finset.univ.sup' Finset.univ_nonempty (fun i => shiftedFeatures X i j)

/-- Translated from the notebook:
`projected_x = 2 * (projected_x / projected_x.max(0)[0]) - 1`. -/
def projectedFeatures {n d : ℕ} (X : Fin (n + 1) → Fin d → ℚ)
    (i : Fin (n + 1)) (j : Fin d) : ℚ :=
  2 * (shiftedFeatures X i j / colMax X j) - 1

/-! Theorems. -/

/-- One CG step preserves the residual invariant `r = b - A x`; this is the
exact-arithmetic identity behind updating the residual by recurrence. -/
theorem resInv_step {n : ℕ} {A : Matrix (Fin n) (Fin n) ℚ} {b : Fin n → ℚ}
    {s : CGState n} (h : ResInv A b s) : ResInv A b (cgStep A s) := by
  simp only [ResInv, cgStep] at *
  rw [h, Matrix.mulVec_add, Matrix.mulVec_smul]
  abel

/-- Full specification of the CG loop relative to the residual invariant:
reported convergence implies the relative-residual bound on the true
residual; a warning means no iterate within the fuel met the tolerance and
the returned estimate is the last iterate; and the iteration count never
exceeds the fuel. -/
theorem cgLoop_spec {n : ℕ} (A : Matrix (Fin n) (Fin n) ℚ) (b : Fin n → ℚ)
    (tol : ℚ) :
    ∀ (fuel : ℕ) (s : CGState n), ResInv A b s →
      ((cgLoop A b tol fuel s).warning = false →
        normSq (b - A.mulVec (cgLoop A b tol fuel s).x) ≤ tol ^ 2 * normSq b) ∧
      ((cgLoop A b tol fuel s).warning = true →
        (∀ k ≤ fuel, ¬ normSq ((cgStep A)^[k] s).r ≤ tol ^ 2 * normSq b) ∧
        (cgLoop A b tol fuel s).x = ((cgStep A)^[fuel] s).x) ∧
      (cgLoop A b tol fuel s).iters ≤ fuel := by
  intro fuel
  induction fuel with
  | zero =>
    intro s hs
    simp only [cgLoop]
    by_cases hc : normSq s.r ≤ tol ^ 2 * normSq b
    · rw [if_pos hc]
      refine ⟨fun _ => ?_, fun h => by simp at h, le_refl 0⟩
      rw [← hs]
      exact hc
    · rw [if_neg hc]
      refine ⟨fun h => by simp at h, fun _ => ⟨?_, rfl⟩, le_refl 0⟩
      intro k hk
      rw [Nat.le_zero] at hk
      subst hk
      simpa using hc
  | succ fuel ih =>
    intro s hs
    simp only [cgLoop]
    by_cases hc : normSq s.r ≤ tol ^ 2 * normSq b
    · rw [if_pos hc]
      refine ⟨fun _ => ?_, fun h => by simp at h, Nat.zero_le _⟩
      rw [← hs]
      exact hc
    · rw [if_neg hc]
      obtain ⟨ih1, ih2, ih3⟩ := ih (cgStep A s) (resInv_step hs)
      refine ⟨ih1, fun h => ?_, Nat.succ_le_succ ih3⟩
      obtain ⟨h1, h2⟩ := ih2 h
      refine ⟨fun k hk => ?_, ?_⟩
      · cases k with
        | zero => simpa using hc
        | succ k =>
          rw [Function.iterate_succ_apply]
          exact h1 k (Nat.le_of_succ_le_succ hk)
      · rw [h2, ← Function.iterate_succ_apply]

/-- C1: whenever the CG solver reports convergence, the returned estimate
satisfies the relative-residual tolerance (stated square-free over ℚ:
`normSq (b - A x) ≤ tol² · normSq b`); and whenever it reports
non-convergence within `max_iter`, no iterate within the cap met the
tolerance, yet the solver still returns its best estimate — the last
iterate — together with the warning flag rather than failing. -/
theorem cg_solver_convergence_contract {n : ℕ} (A : Matrix (Fin n) (Fin n) ℚ)
    (b : Fin n → ℚ) (tol : ℚ) (maxIter : ℕ) :
    ((cgSolve A b tol maxIter).warning = false →
      normSq (b - A.mulVec (cgSolve A b tol maxIter).x) ≤ tol ^ 2 * normSq b) ∧
    ((cgSolve A b tol maxIter).warning = true →
      (∀ k ≤ maxIter, ¬ normSq (cgIterate A b k).r ≤ tol ^ 2 * normSq b) ∧
      (cgSolve A b tol maxIter).x = (cgIterate A b maxIter).x) := by
  have h0 : ResInv A b (⟨0, b, b⟩ : CGState n) := by
    simp [ResInv, Matrix.mulVec_zero]
  obtain ⟨h1, h2, _⟩ := cgLoop_spec A b tol maxIter ⟨0, b, b⟩ h0
  exact ⟨h1, h2⟩

/-- Witness for C1: on the 1×1 system `2 x = 1` with `tol = 1` the solver
reports convergence and the residual bound holds at the returned estimate. -/
theorem cg_solver_convergence_contract_w :
    (cgSolve (!![2] : Matrix (Fin 1) (Fin 1) ℚ) ![1] 1 3).warning = false ∧
    normSq (![1] - (!![2] : Matrix (Fin 1) (Fin 1) ℚ).mulVec
      (cgSolve (!![2] : Matrix (Fin 1) (Fin 1) ℚ) ![1] 1 3).x) ≤
      1 ^ 2 * normSq ![1] := by
  have h := cg_solver_convergence_contract (!![2] : Matrix (Fin 1) (Fin 1) ℚ) ![1] 1 3
  have hw : (cgSolve (!![2] : Matrix (Fin 1) (Fin 1) ℚ) ![1] 1 3).warning = false := by
    norm_num [cgSolve, cgLoop, normSq, Matrix.dotProduct]
  exact ⟨hw, h.1 hw⟩

/-- The Lanczos loop performs at most as many steps as its fuel allows. -/
theorem lanczosLoop_length {n : ℕ} (A : Matrix (Fin n) (Fin n) ℚ) :
    ∀ (fuel : ℕ) (vprev v : Fin n → ℚ), (lanczosLoop A fuel vprev v).length ≤ fuel := by
  intro fuel
  induction fuel with
  | zero => intro vprev v; simp [lanczosLoop]
  | succ fuel ih =>
    intro vprev v
    simp only [lanczosLoop]
    by_cases hc : normSq v = 0
    · rw [if_pos hc]
      simp
    · rw [if_neg hc]
      simp only [List.length_cons]
      exact Nat.succ_le_succ (ih _ _)

/-- C8: every iterative procedure of the core is fuel-bounded — CG performs
at most `max_iter` iterations and Lanczos records at most `k` steps, for
every operator, right-hand side and probe vector. -/
theorem iteration_caps {n : ℕ} (A : Matrix (Fin n) (Fin n) ℚ) (b z : Fin n → ℚ)
    (tol : ℚ) (maxIter k : ℕ) :
    (cgSolve A b tol maxIter).iters ≤ maxIter ∧ (lanczos A z k).length ≤ k := by
  constructor
  · have h0 : ResInv A b (⟨0, b, b⟩ : CGState n) := by
      simp [ResInv, Matrix.mulVec_zero]
    exact (cgLoop_spec A b tol maxIter ⟨0, b, b⟩ h0).2.2
  · exact lanczosLoop_length A k 0 z

/-- The three-stage SKI product equals the matrix-vector product with the
interpolated kernel matrix `W * K_grid * Wᵀ`. -/
theorem skiMatmul_eq {R : Type} [CommRing R] {n g : ℕ}
    (W : Matrix (Fin n) (Fin g) R) (Kgrid : Matrix (Fin g) (Fin g) R)
    (v : Fin n → R) :
    skiMatmul W Kgrid v = (W * Kgrid * Wᵀ).mulVec v := by
  rw [skiMatmul, Matrix.mulVec_mulVec, Matrix.mulVec_mulVec, Matrix.mul_assoc]

/-- C5: the SKI operator's `matmul` applied to a vector — apply `Wᵀ`, then
the grid kernel product, then `W`, without materializing an n×n matrix —
computes exactly the product of the approximation `W * K_grid * Wᵀ` with the
vector. -/
theorem ski_matmul_is_interpolated_product {R : Type} [CommRing R] {n g : ℕ}
    (W : Matrix (Fin n) (Fin g) R) (Kgrid : Matrix (Fin g) (Fin g) R)
    (v : Fin n → R) :
    skiMatmul W Kgrid v = (W * Kgrid * Wᵀ).mulVec v :=
  skiMatmul_eq W Kgrid v

/-- The recursive, structure-exploiting `matmul` of every composite operator
computes the matrix-vector product of its materialization. -/
theorem LinOp.matmul_eq_mulVec :
    ∀ {n : ℕ} (op : LinOp n) (v : Fin n → ℚ), op.matmul v = op.toMatrix.mulVec v := by
  intro n op
  induction op with
  | dense M => intro v; rfl
  | opSum a b iha ihb =>
    intro v
    simp only [LinOp.matmul, LinOp.toMatrix, iha, ihb, Matrix.add_mulVec]
  | scaled c a ih =>
    intro v
    simp only [LinOp.matmul, LinOp.toMatrix, ih, Matrix.smul_mulVec_assoc]
  | kron a b iha ihb =>
    intro v
    funext i
    simp only [LinOp.matmul, LinOp.toMatrix, iha, ihb, Matrix.mulVec,
      Matrix.dotProduct, Matrix.submatrix_apply, Matrix.kroneckerMap_apply,
      Finset.mul_sum]
    refine Eq.trans ?_ (Fintype.sum_equiv finProdFinEquiv
      (fun p => a.toMatrix (finProdFinEquiv.symm i).1 p.1 *
        b.toMatrix (finProdFinEquiv.symm i).2 p.2 * v (finProdFinEquiv p))
      _ (fun p => by simp))
    rw [Fintype.sum_prod_type]
    refine Finset.sum_congr rfl fun x _ => Finset.sum_congr rfl fun y _ => by ring

/-- Materializations of operators built from symmetric children are
symmetric matrices. -/
theorem LinOp.toMatrix_isSymm :
    ∀ {n : ℕ} (op : LinOp n), op.IsSymOp → op.toMatrix.IsSymm := by
  intro n op
  induction op with
  | dense M => exact fun h => h
  | opSum a b iha ihb => exact fun h => (iha h.1).add (ihb h.2)
  | scaled c a ih => exact fun h => (ih h).smul c
  | kron a b iha ihb =>
    intro h
    refine Matrix.IsSymm.submatrix ?_ finProdFinEquiv.symm
    rw [Matrix.IsSymm, ← Matrix.kroneckerMap_transpose, (iha h.1), (ihb h.2)]

/-- C7: any operator claiming symmetry has a matrix-vector product consistent
with a symmetric matrix — its product with the `j`-th basis vector read at
entry `i` agrees with its product with the `i`-th basis vector read at entry
`j` — and this holds for dense operators and for every sum, scalar multiple
and Kronecker product built from symmetric children. -/
theorem symmetric_operator_matmul_consistent {n : ℕ} (op : LinOp n)
    (h : op.IsSymOp) (i j : Fin n) :
    op.matmul (Pi.single j 1) i = op.matmul (Pi.single i 1) j := by
  rw [LinOp.matmul_eq_mulVec, LinOp.matmul_eq_mulVec]
  simp only [Matrix.mulVec_single, mul_one]
  exact ((LinOp.toMatrix_isSymm op h).apply i j).symm

/-- Witness for C7: a sum of a dense symmetric operator and a scaled dense
symmetric operator in dimension 2, checked at the basis pair (0, 1). -/
theorem symmetric_operator_matmul_consistent_w :
    (LinOp.opSum (.dense (!![1, 2; 2, 3] : Matrix (Fin 2) (Fin 2) ℚ))
        (.scaled 2 (.dense !![0, 1; 1, 0]))).IsSymOp ∧
    (LinOp.opSum (.dense (!![1, 2; 2, 3] : Matrix (Fin 2) (Fin 2) ℚ))
        (.scaled 2 (.dense !![0, 1; 1, 0]))).matmul (Pi.single 1 1) 0 =
    (LinOp.opSum (.dense (!![1, 2; 2, 3] : Matrix (Fin 2) (Fin 2) ℚ))
        (.scaled 2 (.dense !![0, 1; 1, 0]))).matmul (Pi.single 0 1) 1 := by
  have hsym : (LinOp.opSum (.dense (!![1, 2; 2, 3] : Matrix (Fin 2) (Fin 2) ℚ))
      (.scaled 2 (.dense !![0, 1; 1, 0]))).IsSymOp := by
    constructor
    · show (!![1, 2; 2, 3] : Matrix (Fin 2) (Fin 2) ℚ)ᵀ = !![1, 2; 2, 3]
      ext i j
      fin_cases i <;> fin_cases j <;> rfl
    · show (!![0, 1; 1, 0] : Matrix (Fin 2) (Fin 2) ℚ)ᵀ = !![0, 1; 1, 0]
      ext i j
      fin_cases i <;> fin_cases j <;> rfl
  exact ⟨hsym, symmetric_operator_matmul_consistent _ hsym 0 1⟩

/-- Every LOVE state-machine operation preserves cache freshness: a cache, if
present, was built at the current parameter version. -/
theorem applyOp_cacheFresh {s : GPModelState} (h : CacheFresh s) (op : GPOp) :
    CacheFresh (applyOp s op) := by
  obtain ⟨mo, pv, pva, ca, rb⟩ := s
  cases op with
  | trainMode => intro v hv; simp [applyOp] at hv
  | evalMode =>
    intro v hv
    simp only [applyOp] at hv ⊢
    exact h v hv
  | mutateParam q => intro v hv; simp [applyOp] at hv
  | predict =>
    cases mo with
    | training => exact h
    | evaluation =>
      cases ca with
      | some c => exact h
      | none =>
        intro v hv
        simp only [applyOp, Option.some.injEq] at hv ⊢
        exact hv.symm

/-- Cache freshness holds in every state reachable from the initial model. -/
theorem runOps_cacheFresh (ops : List GPOp) : CacheFresh (runOps ops) := by
  suffices h : ∀ (l : List GPOp) (s : GPModelState), CacheFresh s →
      CacheFresh (l.foldl applyOp s) by
    refine h ops initState ?_
    intro v hv
    simp [initState] at hv
  intro l
  induction l with
  | nil => exact fun s hs => hs
  | cons op rest ih => exact fun s hs => ih (applyOp s op) (applyOp_cacheFresh hs op)

/-- C2: parameter mutation (equivalently, re-entering training mode) always
drives the LOVE cache to Uncached; consequently every reachable state is
cache-fresh, so a prediction never reads a cache built before the latest
parameter mutation; and a prediction made after switching back to training
mode and then to evaluation mode rebuilds the cache (the rebuild counter
increments) instead of reusing the stale one. -/
theorem love_cache_invalidation_law :
    (∀ ops : List GPOp, CacheFresh (runOps ops)) ∧
    (∀ (s : GPModelState) (q : ℚ), (applyOp s (.mutateParam q)).cache = none ∧
      (applyOp s .trainMode).cache = none) ∧
    (∀ s : GPModelState,
      (applyOp (applyOp (applyOp s .trainMode) .evalMode) .predict).rebuilds =
        s.rebuilds + 1) := by
  refine ⟨runOps_cacheFresh, fun s q => ⟨rfl, rfl⟩, fun s => ?_⟩
  obtain ⟨mo, pv, pva, ca, rb⟩ := s
  simp [applyOp]

/-- Witness for C2: cache freshness evaluated on a concrete operation
sequence that mutates a parameter between two predictions, and the concrete
rebuild increment from the initial state. -/
theorem love_cache_invalidation_law_w :
    CacheFresh (runOps [GPOp.evalMode, .predict, .mutateParam 2, .evalMode, .predict]) ∧
    (applyOp (applyOp (applyOp initState .trainMode) .evalMode) .predict).rebuilds =
      initState.rebuilds + 1 :=
  ⟨love_cache_invalidation_law.1 _, love_cache_invalidation_law.2.2 _⟩

/-- C9: a prediction call that raises a structural error (`InvalidParameter`,
`NumericalFailure` or `ResourceLimitExceeded`) aborts with the LOVE cache and
the parameter state unchanged, while CG non-convergence never aborts the
call — whenever no structural check fails, the call returns a best-effort
result carrying the `ConvergenceWarning` flag. -/
theorem structural_error_atomicity (s : GPModelState) (c : CallInputs) :
    (∀ e : GPError, (predictCall s c).2 = .error e → (predictCall s c).1 = s) ∧
    ((c.lo ≤ s.paramValue ∧ s.paramValue ≤ c.hi) →
      ¬ c.memLimit < c.matSize →
      ¬ (List.range (c.maxJitter + 1)).all (fun j => ! c.jitterSucceeds j) = true →
      (predictCall s c).2 = .ok ⟨! c.cgConverged⟩) := by
  unfold predictCall
  by_cases h1 : ¬ (c.lo ≤ s.paramValue ∧ s.paramValue ≤ c.hi)
  · rw [if_pos h1]
    exact ⟨fun e _ => rfl, fun h2 _ _ => absurd h2 h1⟩
  · rw [if_neg h1]
    by_cases h2 : c.memLimit < c.matSize
    · rw [if_pos h2]
      exact ⟨fun e _ => rfl, fun _ h2n _ => absurd h2 h2n⟩
    · rw [if_neg h2]
      by_cases h3 : (List.range (c.maxJitter + 1)).all (fun j => ! c.jitterSucceeds j) = true
      · rw [if_pos h3]
        exact ⟨fun e _ => rfl, fun _ _ h3n => absurd h3 h3n⟩
      · rw [if_neg h3]
        exact ⟨fun e he => by simp at he, fun _ _ _ => rfl⟩

/-- Witness for C9: a call whose parameter sits outside its box constraints
aborts with `InvalidParameter` and leaves the model state untouched. -/
theorem structural_error_atomicity_w :
    (predictCall initState
      (⟨0, 0, 0, 0, fun _ => true, 0, true⟩ : CallInputs)).2 =
        .error .invalidParameter ∧
    (predictCall initState
      (⟨0, 0, 0, 0, fun _ => true, 0, true⟩ : CallInputs)).1 = initState := by
  have he : (predictCall initState
      (⟨0, 0, 0, 0, fun _ => true, 0, true⟩ : CallInputs)).2 =
        .error .invalidParameter := by
    norm_num [predictCall, initState]
  exact ⟨he, (structural_error_atomicity initState _).1 .invalidParameter he⟩

/-- C3: when `u` is the solution of `A u = y` (what CG returns at exact
convergence) and `A` is invertible (as a symmetric positive-definite training
covariance is), the engine's training objective equals the exact marginal log
likelihood `L = -1/2 yᵀ A⁻¹ y - 1/2 log det A - n/2 log (2π)`, and the value
handed to the external optimizer is its negation `-L`. -/
theorem engine_loss_is_negated_mll {n : ℕ} (A : Matrix (Fin n) (Fin n) ℝ)
    (y u : Fin n → ℝ) (hA : IsUnit A.det) (hu : A.mulVec u = y) :
    engineMLL A y u = marginalLogLik A y ∧
    engineLoss A y u = - marginalLogLik A y := by
  have husol : u = A⁻¹.mulVec y := by
    rw [← hu, Matrix.mulVec_mulVec, Matrix.nonsing_inv_mul A hA, Matrix.one_mulVec]
  have h2 : engineMLL A y u = marginalLogLik A y := by
    rw [engineMLL, marginalLogLik, husol]
  exact ⟨h2, by rw [engineLoss, h2]⟩

/-- Witness for C3: the 1×1 training covariance `A = (2)` with targets
`y = (4)` and CG solution `u = (2)`. -/
theorem engine_loss_is_negated_mll_w :
    IsUnit (!![2] : Matrix (Fin 1) (Fin 1) ℝ).det ∧
    (!![2] : Matrix (Fin 1) (Fin 1) ℝ).mulVec ![2] = ![4] ∧
    engineLoss (!![2] : Matrix (Fin 1) (Fin 1) ℝ) ![4] ![2] =
      - marginalLogLik (!![2] : Matrix (Fin 1) (Fin 1) ℝ) ![4] := by
  have hA : IsUnit (!![2] : Matrix (Fin 1) (Fin 1) ℝ).det := by
    rw [Matrix.det_fin_one]
    norm_num
  have hu : (!![2] : Matrix (Fin 1) (Fin 1) ℝ).mulVec ![2] = ![4] := by
    funext i
    fin_cases i
    norm_num [Matrix.mulVec, Matrix.dotProduct]
  exact ⟨hA, hu, (engine_loss_is_negated_mll (!![2]) ![4] ![2] hA hu).2⟩

/-- Entrywise closeness of the interpolated kernel matrix to the dense kernel
matrix: with weights of each row summing to 1, absolute row sums bounded by
`C`, and every weight supported within distance `hg` of its data point, each
entry of `W * K_grid * Wᵀ` is within `2 L C² hg` of the dense kernel entry
for an `L`-Lipschitz kernel. -/
theorem ski_entry_close {n g : ℕ} (k : ℝ → ℝ → ℝ) (L C hg : ℝ) (x : Fin n → ℝ)
    (u : Fin g → ℝ) (W : Matrix (Fin n) (Fin g) ℝ)
    (hL : 0 ≤ L)
    (hk : ∀ a b a2 b2, |k a b - k a2 b2| ≤ L * (|a - a2| + |b - b2|))
    (hsum : ∀ i, ∑ t, W i t = 1)
    (habs : ∀ i, ∑ t, |W i t| ≤ C)
    (hsupp : ∀ i t, W i t ≠ 0 → |u t - x i| ≤ hg)
    (hgpos : 0 ≤ hg) (i j : Fin n) :
    |(W * gridKernelMatrix k u * Wᵀ) i j - denseKernelMatrix k x i j| ≤
      2 * L * C ^ 2 * hg := by
  have hC : 0 ≤ C := le_trans (Finset.sum_nonneg fun t _ => abs_nonneg _) (habs i)
  have hW : (W * gridKernelMatrix k u * Wᵀ) i j =
      ∑ t, ∑ s, W i t * W j s * k (u t) (u s) := by
    simp only [Matrix.mul_apply, Matrix.transpose_apply, gridKernelMatrix,
      Matrix.of_apply, Finset.sum_mul]
    rw [Finset.sum_comm]
    exact Finset.sum_congr rfl fun t _ => Finset.sum_congr rfl fun s _ => by ring
  have hD : denseKernelMatrix k x i j =
      ∑ t, ∑ s, W i t * W j s * k (x i) (x j) := by
    have h1 : denseKernelMatrix k x i j =
        (∑ t, W i t) * (∑ s, W j s) * k (x i) (x j) := by
      rw [hsum i, hsum j, denseKernelMatrix, Matrix.of_apply]
      ring
    rw [h1, Finset.sum_mul_sum]
    simp only [Finset.sum_mul]
  have key : ∀ t s, |W i t * W j s * (k (u t) (u s) - k (x i) (x j))| ≤
      |W i t| * |W j s| * (L * (2 * hg)) := by
    intro t s
    rw [abs_mul, abs_mul]
    by_cases hwt : W i t = 0
    · simp only [hwt, abs_zero, zero_mul]
      positivity
    by_cases hws : W j s = 0
    · simp only [hws, abs_zero, zero_mul, mul_zero]
      positivity
    have h1 : |k (u t) (u s) - k (x i) (x j)| ≤ L * (2 * hg) := by
      refine le_trans (hk _ _ _ _) ?_
      have ht := hsupp i t hwt
      have hs := hsupp j s hws
      have : |u t - x i| + |u s - x j| ≤ 2 * hg := by linarith
      exact mul_le_mul_of_nonneg_left this hL
    exact mul_le_mul_of_nonneg_left h1 (by positivity)
  calc |(W * gridKernelMatrix k u * Wᵀ) i j - denseKernelMatrix k x i j|
      = |∑ t, ∑ s, W i t * W j s * (k (u t) (u s) - k (x i) (x j))| := by
        rw [hW, hD, ← Finset.sum_sub_distrib]
        congr 1
        refine Finset.sum_congr rfl fun t _ => ?_
        rw [← Finset.sum_sub_distrib]
        exact Finset.sum_congr rfl fun s _ => by ring
    _ ≤ ∑ t, ∑ s, |W i t * W j s * (k (u t) (u s) - k (x i) (x j))| := by
        refine le_trans (Finset.abs_sum_le_sum_abs _ _) ?_
        exact Finset.sum_le_sum fun t _ => Finset.abs_sum_le_sum_abs _ _
    _ ≤ ∑ t, ∑ s, |W i t| * |W j s| * (L * (2 * hg)) :=
        Finset.sum_le_sum fun t _ => Finset.sum_le_sum fun s _ => key t s
    _ = (∑ t, |W i t|) * ((∑ s, |W j s|) * (L * (2 * hg))) := by
        rw [Finset.sum_mul]
        refine Finset.sum_congr rfl fun t _ => ?_
        rw [Finset.sum_mul, Finset.mul_sum]
        exact Finset.sum_congr rfl fun s _ => by ring
    _ ≤ C * (C * (L * (2 * hg))) := by
        have h1 : (∑ s, |W j s|) * (L * (2 * hg)) ≤ C * (L * (2 * hg)) :=
          mul_le_mul_of_nonneg_right (habs j) (by positivity)
        have h2 : (∑ t, |W i t|) * ((∑ s, |W j s|) * (L * (2 * hg))) ≤
            (∑ t, |W i t|) * (C * (L * (2 * hg))) :=
          mul_le_mul_of_nonneg_left h1 (Finset.sum_nonneg fun t _ => abs_nonneg _)
        have h3 : (∑ t, |W i t|) * (C * (L * (2 * hg))) ≤ C * (C * (L * (2 * hg))) :=
          mul_le_mul_of_nonneg_right (habs i) (by positivity)
        exact le_trans h2 h3
    _ = 2 * L * C ^ 2 * hg := by ring

/-- Entrywise-close matrices have close matrix-vector products, with the
error scaled by the 1-norm of the vector. -/
theorem mulVec_entry_close {n : ℕ} (E F : Matrix (Fin n) (Fin n) ℝ)
    (v : Fin n → ℝ) (eps : ℝ) (i : Fin n) (h : ∀ j, |E i j - F i j| ≤ eps) :
    |E.mulVec v i - F.mulVec v i| ≤ eps * ∑ j, |v j| := by
  simp only [Matrix.mulVec, Matrix.dotProduct]
  rw [← Finset.sum_sub_distrib]
  refine le_trans (Finset.abs_sum_le_sum_abs _ _) ?_
  rw [Finset.mul_sum]
  refine Finset.sum_le_sum fun j _ => ?_
  rw [← sub_mul, abs_mul]
  exact mul_le_mul_of_nonneg_right (h j) (abs_nonneg _)

/-- C6: for fixed input points and a fixed input vector, the SKI operator's
`matmul` output converges to the dense kernel operator's output as the grid
is refined — for any Lipschitz kernel and any family of interpolation weight
matrices whose rows sum to 1, have bounded absolute sum, and are supported
within a fill distance `h g` of their data points, with `h g → 0` as the
grid-resolution knob `g` grows. -/
theorem ski_matmul_grid_convergence
    {n : ℕ} (k : ℝ → ℝ → ℝ) (L C : ℝ) (x : Fin n → ℝ)
    (m : ℕ → ℕ) (u : (g : ℕ) → Fin (m g) → ℝ)
    (W : (g : ℕ) → Matrix (Fin n) (Fin (m g)) ℝ) (h : ℕ → ℝ)
    (hL : 0 ≤ L)
    (hk : ∀ a b a2 b2, |k a b - k a2 b2| ≤ L * (|a - a2| + |b - b2|))
    (hsum : ∀ g i, ∑ t, W g i t = 1)
    (habs : ∀ g i, ∑ t, |W g i t| ≤ C)
    (hsupp : ∀ g i t, W g i t ≠ 0 → |u g t - x i| ≤ h g)
    (hpos : ∀ g, 0 ≤ h g)
    (hh : Tendsto h atTop (nhds 0))
    (v : Fin n → ℝ) (i : Fin n) :
    Tendsto (fun g => skiMatmul (W g) (gridKernelMatrix k (u g)) v i) atTop
      (nhds ((denseKernelMatrix k x).mulVec v i)) := by
  rw [tendsto_iff_dist_tendsto_zero]
  simp only [Real.dist_eq]
  have hb : ∀ g, |skiMatmul (W g) (gridKernelMatrix k (u g)) v i -
      (denseKernelMatrix k x).mulVec v i| ≤
      (2 * L * C ^ 2 * ∑ j, |v j|) * h g := by
    intro g
    rw [skiMatmul_eq]
    refine le_trans (mulVec_entry_close (W g * gridKernelMatrix k (u g) * (W g)ᵀ)
      (denseKernelMatrix k x) v (2 * L * C ^ 2 * h g) i
      (fun j => ski_entry_close k L C (h g) x (u g) (W g) hL hk (hsum g)
        (habs g) (hsupp g) (hpos g) i j)) ?_
    exact le_of_eq (by ring)
  refine squeeze_zero (fun g => abs_nonneg _) hb ?_
  have hconst := hh.const_mul (2 * L * C ^ 2 * ∑ j, |v j|)
  simpa using hconst

/-- Witness for C6: the degenerate family with one data point at the origin,
one grid point at the origin, unit weights, zero fill distance and the zero
kernel. -/
theorem ski_matmul_grid_convergence_w :
    Tendsto (fun _ : ℕ => skiMatmul
        (Matrix.of fun (_ : Fin 1) (_ : Fin 1) => (1 : ℝ))
        (gridKernelMatrix (fun _ _ => 0) (fun (_ : Fin 1) => (0 : ℝ)))
        (fun _ => 1) 0) atTop
      (nhds ((denseKernelMatrix (fun _ _ => 0)
        (fun (_ : Fin 1) => (0 : ℝ))).mulVec (fun _ => 1) 0)) := by
  refine ski_matmul_grid_convergence (fun _ _ => 0) 0 1 (fun _ => (0 : ℝ))
    (fun _ => 1) (fun _ _ => 0) (fun _ => Matrix.of fun _ _ => 1) (fun _ => 0)
    le_rfl (fun a b a2 b2 => by simp) (fun _ _ => by simp)
    (fun _ _ => by simp) (fun _ _ _ _ => by simp) (fun _ => le_rfl)
    tendsto_const_nhds (fun _ => 1) 0

/-- C10: in the notebook's `GPRegressionModel.forward`, whenever the
extracted feature column `j` is non-constant over the batch, the normalized
`projected_x` column has minimum exactly −1 and maximum exactly 1, so every
projected point lies strictly inside the declared SKI grid bounds
(−1.1, 1.1). -/
theorem dkl_projection_within_grid_bounds {n d : ℕ}
    (X : Fin (n + 1) → Fin d → ℚ) (j : Fin d)
    (hnc : ∃ i0 i1, X i0 j ≠ X i1 j) :
    Finset.univ.inf' Finset.univ_nonempty (fun i => projectedFeatures X i j) = -1 ∧
    Finset.univ.sup' Finset.univ_nonempty (fun i => projectedFeatures X i j) = 1 ∧
    ∀ i, -(11 / 10 : ℚ) < projectedFeatures X i j ∧
      projectedFeatures X i j < 11 / 10 := by
  obtain ⟨i0, i1, hne⟩ := hnc
  have hshift_nonneg : ∀ i, 0 ≤ shiftedFeatures X i j := by
    intro i
    rw [shiftedFeatures, sub_nonneg, colMin]
    exact Finset.inf'_le _ (Finset.mem_univ i)
  have hshift_le : ∀ i, shiftedFeatures X i j ≤ colMax X j := by
    intro i
    rw [colMax]
    exact Finset.le_sup' (fun i => shiftedFeatures X i j) (Finset.mem_univ i)
  have hMpos : 0 < colMax X j := by
    by_contra hM
    push_neg at hM
    have hall : ∀ i, shiftedFeatures X i j = 0 := fun i =>
      le_antisymm (le_trans (hshift_le i) hM) (hshift_nonneg i)
    have h0 := hall i0
    have h1 := hall i1
    rw [shiftedFeatures, sub_eq_zero] at h0 h1
    exact hne (h0.trans h1.symm)
  have hMne : colMax X j ≠ 0 := ne_of_gt hMpos
  obtain ⟨imax, _, hmax⟩ := Finset.exists_mem_eq_sup'
    (Finset.univ_nonempty : (Finset.univ : Finset (Fin (n + 1))).Nonempty)
    (fun i => shiftedFeatures X i j)
  obtain ⟨imin, _, hmin⟩ := Finset.exists_mem_eq_inf'
    (Finset.univ_nonempty : (Finset.univ : Finset (Fin (n + 1))).Nonempty)
    (fun i => X i j)
  have hemax : shiftedFeatures X imax j = colMax X j := by rw [colMax, hmax]
  have hshift_min : shiftedFeatures X imin j = 0 := by
    rw [shiftedFeatures, colMin, ← hmin, sub_self]
  have hproj_le : ∀ i, projectedFeatures X i j ≤ 1 := by
    intro i
    rw [projectedFeatures]
    have hd : shiftedFeatures X i j / colMax X j ≤ 1 :=
      (div_le_one hMpos).mpr (hshift_le i)
    linarith
  have hproj_ge : ∀ i, -1 ≤ projectedFeatures X i j := by
    intro i
    rw [projectedFeatures]
    have hd : 0 ≤ shiftedFeatures X i j / colMax X j :=
      div_nonneg (hshift_nonneg i) (le_of_lt hMpos)
    linarith
  have hproj_max : projectedFeatures X imax j = 1 := by
    rw [projectedFeatures, hemax, div_self hMne]
    norm_num
  have hproj_min : projectedFeatures X imin j = -1 := by
    rw [projectedFeatures, hshift_min, zero_div]
    norm_num
  refine ⟨le_antisymm ?_ ?_, le_antisymm ?_ ?_, fun i => ?_⟩
  · rw [← hproj_min]
    exact Finset.inf'_le (fun i => projectedFeatures X i j) (Finset.mem_univ imin)
  · exact Finset.le_inf' _ _ fun i _ => hproj_ge i
  · exact Finset.sup'_le _ _ fun i _ => hproj_le i
  · rw [← hproj_max]
    exact Finset.le_sup' (fun i => projectedFeatures X i j) (Finset.mem_univ imax)
  · constructor
    · refine lt_of_lt_of_le (by norm_num) (hproj_ge i)
    · refine lt_of_le_of_lt (hproj_le i) (by norm_num)

/-- Witness for C10: a batch of two points with feature values 0 and 1 in the
single feature column; the column is non-constant and every projected value
lies strictly inside (−1.1, 1.1). -/
theorem dkl_projection_within_grid_bounds_w :
    ((![![(0 : ℚ)], ![1]] : Fin 2 → Fin 1 → ℚ) 0 0 ≠ ![![(0 : ℚ)], ![1]] 1 0) ∧
    ∀ i, -(11 / 10 : ℚ) < projectedFeatures ![![(0 : ℚ)], ![1]] i 0 ∧
      projectedFeatures ![![(0 : ℚ)], ![1]] i 0 < 11 / 10 := by
  have hne : (![![(0 : ℚ)], ![1]] : Fin 2 → Fin 1 → ℚ) 0 0 ≠ ![![(0 : ℚ)], ![1]] 1 0 := by
    norm_num [Matrix.cons_val_zero, Matrix.cons_val_one, Matrix.vecHead]
  exact ⟨hne,
    (dkl_projection_within_grid_bounds ![![(0 : ℚ)], ![1]] 0 ⟨0, 1, hne⟩).2.2⟩

end GP
